import Mathlib

/-!
Shallow embedding of the named-wildcard pattern engine in `src/wildcard.rs`
(crate `crabwalk`), together with theorems checking the specification's
claims about it.

The Rust code compiles a template such as `"path/to/{name,\d+}.txt"` into an
anchored regular expression (escaping the literal parts), extracts a
name-to-value mapping from a candidate string, and renders templates from
such a mapping.  The embedding below mirrors that structure:

* `scanWildcards` is the placeholder scanner, a deterministic rendering of
  the verbose regex built in `wildcard_regex` (`\{\s*(?P<name>\w+)\s*
  (\s*,\s*(?<constraint>([^{}]+|\{\d+(,\d+)?\})*)\s*)?\s*\}`), applied
  leftmost and non-overlapping as `captures_iter` does.
* `CRegex`/`cruns` model the constraint sub-expressions that the code
  splices into the regex string: character classes (`\d`, `\w`, `\s` and
  their negations, `.`, bracket classes), escaped and plain literals,
  alternation, capture groups, postfix `+`, `*`, `?` and bounded
  repetition `{m}`/`{m,n}`, with the regex crate's leftmost-first
  (greedy, backtracking-priority) match order.  Capture groups are
  numbered globally by the position of their opening parenthesis in the
  built regex string, exactly as the regex crate numbers them, and a
  match records each participating group's captured text (groups in an
  untaken alternative do not participate).  Residual syntax outside this
  fragment (anchors, lazy quantifiers, exotic escapes) maps to the
  `RegexError` outcome.
* a compiled pattern is the list of segments of the built regex string:
  escaped literal runs (which match exactly their own characters) and one
  capture group per placeholder occurrence, named at the first occurrence
  of each name and unnamed for repeats, exactly as `Wildcard::new` emits
  `(?P<name>c)` and `(c)` groups; `smatch` is anchored whole-string
  matching of that segment list, returning the global capture table that
  `cap.name(...)` and `cap.get(...)` read in `Wildcard::extract`.
-/

/-- A placeholder occurrence reported by the scanner: start/end offsets of
the whole `{...}` token in the template, the stripped name, and the
optional constraint text, as captured by `wildcard_regex`. -/
structure Occ where
  start : Nat
  stop : Nat
  name : String
  constraint : Option String
deriving DecidableEq, Repr

/-- Character class of `\w` (identifier characters), modelled on the ASCII
range; the crate's Unicode-default `\w` additionally accepts non-ASCII
word characters, which no claim exercises. -/
def wordChar (c : Char) : Bool := c.isAlphanum || c = '_'

/-- Character class of `\s`, modelled on the ASCII whitespace range; the
crate's Unicode-default `\s` additionally accepts non-ASCII whitespace,
which no claim exercises. -/
def wsChar (c : Char) : Bool := c.isWhitespace

/-- Parse a bounded-repetition block `\{\d+(,\d+)?\}` inside a constraint,
returning the block's literal text and the rest of the input.  This is the
second alternative of the constraint group in `wildcard_regex`, which keeps
`{2,4}`-style braces from being misread as placeholder boundaries. -/
def parseRepBlock : List Char → Option (List Char × List Char)
| '{' :: cs =>
  let ds := cs.takeWhile Char.isDigit
  let r1 := cs.dropWhile Char.isDigit
  if ds.isEmpty then none else
  match r1 with
  | '}' :: r2 => some ('{' :: (ds ++ ['}']), r2)
  | ',' :: r1' =>
    let ds2 := r1'.takeWhile Char.isDigit
    let r2 := r1'.dropWhile Char.isDigit
    if ds2.isEmpty then none else
    match r2 with
    | '}' :: r3 => some ('{' :: (ds ++ ',' :: (ds2 ++ ['}'])), r3)
    | _ => none
  | _ => none
| _ => none

/-- Body of the constraint group `([^{}]+|\{\d+(,\d+)?\})*`: greedily
collect maximal non-brace runs and repetition blocks.  Returns the captured
constraint text and the rest of the input.  Fuel is the input length, which
is enough since every iteration consumes at least one character. -/
def parseConstraintBody : Nat → List Char → List Char × List Char
| 0, cs => ([], cs)
| f+1, cs =>
  let run := cs.takeWhile (fun c => !(c = '{' || c = '}'))
  let rest := cs.dropWhile (fun c => !(c = '{' || c = '}'))
  if run.isEmpty then
    match parseRepBlock cs with
    | some (blk, rest') =>
      let p := parseConstraintBody f rest'
      (blk ++ p.1, p.2)
    | none => ([], cs)
  else
    let p := parseConstraintBody f rest
    (run ++ p.1, p.2)

/-- Try to match `wildcard_regex` at the current input position (the input
must begin with the `{` of a candidate placeholder).  Mirrors the verbose
regex with the regex crate's leftmost-first semantics: whitespace around
the name and after the comma is consumed by the `\s*` atoms, while the
greedy `[^{}]+` inside the constraint group keeps any trailing whitespace
before the closing brace as part of the captured constraint.  Returns the
name, the optional constraint text, and the unconsumed rest. -/
def parsePlaceholder : List Char → Option (String × Option String × List Char)
| '{' :: cs =>
  let r1 := cs.dropWhile wsChar
  let nm := r1.takeWhile wordChar
  let r2 := (r1.dropWhile wordChar).dropWhile wsChar
  if nm.isEmpty then none
  else
    match r2 with
    | '}' :: r4 => some (String.mk nm, none, r4)
    | ',' :: r4 =>
      let r5 := r4.dropWhile wsChar
      let p := parseConstraintBody r5.length r5
      match p.2 with
      | '}' :: r7 => some (String.mk nm, some (String.mk p.1), r7)
      | _ => none
    | _ => none
| _ => none

/-- Walk the template left to right, reporting non-overlapping placeholder
matches exactly as `wildcard_regex().captures_iter(pattern)` does.  Fuel is
the remaining input length. -/
def scanAux : Nat → List Char → Nat → List Occ
| 0, _, _ => []
| _+1, [], _ => []
| f+1, c :: cs, pos =>
  if c = '{' then
    match parsePlaceholder (c :: cs) with
    | some (nm, constr, rest) =>
      let used := (c :: cs).length - rest.length
      ⟨pos, pos + used, nm, constr⟩ :: scanAux f rest (pos + used)
    | none => scanAux f cs (pos + 1)
  else scanAux f cs (pos + 1)

/-- All placeholder occurrences of a template, in order. -/
def scanWildcards (s : List Char) : List Occ := scanAux s.length s 0

/-- Constraint sub-expressions: the regex fragment the code splices into
the compiled pattern between the escaped literal runs.  `grp k r` is a
capturing group whose global group number is `k` (the regex crate numbers
groups by the position of their opening parenthesis in the whole compiled
expression). -/
inductive CRegex
| cls (p : Char → Bool)
| eps
| cat (r1 r2 : CRegex)
| alt (r1 r2 : CRegex)
| star (r : CRegex)
| grp (k : Nat) (r : CRegex)

/-- The `.` class: in the regex crate, `.` matches any character except
newline (the code never enables `(?s)`). -/
def dotC : CRegex := .cls (fun c => c != '\n')

/-- The `\d` class (ASCII decimal digits; the crate's Unicode-default `\d`
additionally accepts non-ASCII decimal digits, which no claim
exercises). -/
def digitC : CRegex := .cls Char.isDigit

/-- The `\w` class. -/
def wordC : CRegex := .cls wordChar

/-- The `\s` class. -/
def wsC : CRegex := .cls wsChar

/-- A literal character atom. -/
def litC (c : Char) : CRegex := .cls (fun x => x == c)

/-- Structural size of a constraint expression, used to pick fuel. -/
def crSize : CRegex → Nat
| .cls _ => 1
| .eps => 1
| .cat r1 r2 => crSize r1 + crSize r2 + 1
| .alt r1 r2 => crSize r1 + crSize r2 + 1
| .star r => crSize r + 1
| .grp _ r => crSize r + 1

/-- Whether an expression contains no capture group. -/
def grpFree : CRegex → Bool
| .cls _ => true
| .eps => true
| .cat r1 r2 => grpFree r1 && grpFree r2
| .alt r1 r2 => grpFree r1 && grpFree r2
| .star r => grpFree r
| .grp _ _ => false

/-- All ways a constraint can match a prefix of the input, in the regex
crate's leftmost-first priority order: alternation prefers the left
branch, star is greedy (more iterations first, each iteration must make
progress).  Each way carries the unconsumed suffix and the captures
`(group number, captured text)` recorded along that way, most recent
first, so that a later iteration of a group shadows an earlier one as in
the crate; a group in an untaken branch records nothing (it does not
participate).  Fuel bounds the recursion depth. -/
def cruns : Nat → CRegex → List Char → List (List Char × List (Nat × List Char))
| 0, _, _ => []
| _+1, .cls _, [] => []
| _+1, .cls p, c :: cs => if p c then [(cs, [])] else []
| _+1, .eps, s => [(s, [])]
| f+1, .cat r1 r2, s =>
  (cruns f r1 s).flatMap (fun p =>
    (cruns f r2 p.1).map (fun q => (q.1, q.2 ++ p.2)))
| f+1, .alt r1 r2, s => cruns f r1 s ++ cruns f r2 s
| f+1, .star r, s =>
  ((cruns f r s).filter (fun p => decide (p.1.length < s.length))).flatMap
    (fun p => (cruns f (.star r) p.1).map (fun q => (q.1, q.2 ++ p.2))) ++ [(s, [])]
| f+1, .grp k r, s =>
  (cruns f r s).map (fun p => (p.1, (k, s.take (s.length - p.1.length)) :: p.2))

/-- Fuel that is ample for matching `r` against `s`. -/
def crFuel (r : CRegex) (s : List Char) : Nat := (crSize r + 1) * (s.length + 1) + 1

/-- Segments of the compiled anchored regex string: an escaped literal run
(matching exactly its own characters) or one capture group per placeholder
occurrence, carrying the group name for the first occurrence of each
placeholder name and `none` for repeat occurrences, plus the occurrence
group's global number `k` (its constraint's own groups are numbered from
`k + 1`). -/
inductive Seg
| lit (l : List Char)
| grp (tag : Option String) (k : Nat) (r : CRegex)

/-- Same segments before the constraint text is parsed: `Wildcard::new`
builds the regex string first and only compiles it at the end, so syntax
errors in constraints surface only after the whole scan. -/
inductive RawSeg
| lit (l : List Char)
| grp (tag : Option String) (c : String)

/-- Decimal value of a digit run. -/
def natOfDigits (ds : List Char) : Nat :=
  ds.foldl (fun acc c => acc * 10 + (c.toNat - '0'.toNat)) 0

/-- `r` repeated exactly `n` times (the expansion of `r{n}`); repeating a
group repeats its index, so a later iteration's capture shadows an
earlier one, as in the crate. -/
def repeatN : Nat → CRegex → CRegex
| 0, _ => .eps
| n+1, r => .cat r (repeatN n r)

/-- `r` repeated at most `n` times, greedy (the upper part of `r{m,n}`). -/
def repeatUpto : Nat → CRegex → CRegex
| 0, _ => .eps
| n+1, r => .alt (.cat r (repeatUpto n r)) .eps

/-- Apply an optional postfix quantifier (`+`, `*`, `?`, `{m}`, `{m,n}`,
`{m,}`) to a parsed atom. -/
def applyPostfix (a : CRegex) (cs : List Char) (k : Nat) :
    Option (CRegex × List Char × Nat) :=
  match cs with
  | '+' :: r2 => some (.cat a (.star a), r2, k)
  | '*' :: r2 => some (.star a, r2, k)
  | '?' :: r2 => some (.alt a .eps, r2, k)
  | '{' :: r2 =>
    let ds := r2.takeWhile Char.isDigit
    let r3 := r2.dropWhile Char.isDigit
    if ds.isEmpty then none else
    let m := natOfDigits ds
    match r3 with
    | '}' :: r4 => some (repeatN m a, r4, k)
    | ',' :: '}' :: r5 => some (.cat (repeatN m a) (.star a), r5, k)
    | ',' :: r4 =>
      let ds2 := r4.takeWhile Char.isDigit
      let r5 := r4.dropWhile Char.isDigit
      if ds2.isEmpty then none else
      let n := natOfDigits ds2
      match r5 with
      | '}' :: r6 =>
        if m ≤ n then some (.cat (repeatN m a) (repeatUpto (n - m) a), r6, k)
        else none
      | _ => none
    | _ => none
  | _ => some (a, cs, k)

/-- Items of a bracket character class `[...]`: literal characters,
ranges `a-z`, class escapes, with an accumulated predicate.  Returns the
class predicate and the rest after the closing bracket. -/
def parseClsItems : Nat → List Char → (Char → Bool) → Option ((Char → Bool) × List Char)
| 0, _, _ => none
| _+1, [], _ => none
| _+1, ']' :: rest, acc => some (acc, rest)
| _+1, ['\\'], _ => none
| f+1, '\\' :: c :: rest, acc =>
  if c = 'd' then parseClsItems f rest (fun x => acc x || Char.isDigit x)
  else if c = 'w' then parseClsItems f rest (fun x => acc x || wordChar x)
  else if c = 's' then parseClsItems f rest (fun x => acc x || wsChar x)
  else if c = 'D' then parseClsItems f rest (fun x => acc x || !Char.isDigit x)
  else if c = 'W' then parseClsItems f rest (fun x => acc x || !wordChar x)
  else if c = 'S' then parseClsItems f rest (fun x => acc x || !wsChar x)
  else if c = 'n' then parseClsItems f rest (fun x => acc x || x == '\n')
  else if c = 't' then parseClsItems f rest (fun x => acc x || x == '\t')
  else if c = 'r' then parseClsItems f rest (fun x => acc x || x == '\r')
  else if c.isAlphanum then none
  else parseClsItems f rest (fun x => acc x || x == c)
| f+1, c :: '-' :: d :: rest, acc =>
  if d = ']' then some ((fun x => acc x || x == c || x == '-'), rest)
  else parseClsItems f rest (fun x => acc x || (decide (c ≤ x) && decide (x ≤ d)))
| f+1, c :: rest, acc => parseClsItems f rest (fun x => acc x || x == c)

/-- Mode of the recursive-descent constraint parser: a whole alternation,
a concatenation sequence with an accumulator, or a single atom with its
optional postfix quantifier. -/
inductive PMode
| palt
| pseq (acc : CRegex)
| patom

/-- Recursive-descent parser for the constraint fragment, threading the
next free global group number.  Alternation is lowest precedence; a
sequence stops at `|`, `)` or the end; an atom is a capturing group
`( ... )` (which allocates the next group number), a bracket class, an
escape, `.`, or a literal character; quantifiers that the fragment does
not model (anchors, lazy quantifiers, exotic escapes) fail, which
`Wildcard.new` surfaces as `RegexError`. -/
def parseC : Nat → PMode → List Char → Nat → Option (CRegex × List Char × Nat)
| 0, _, _, _ => none
| f+1, .palt, cs, k =>
  match parseC f (.pseq .eps) cs k with
  | none => none
  | some (r, rest, k') =>
    match rest with
    | '|' :: rest2 =>
      match parseC f .palt rest2 k' with
      | none => none
      | some (r2, rest3, k'') => some (.alt r r2, rest3, k'')
    | _ => some (r, rest, k')
| f+1, .pseq acc, cs, k =>
  match cs with
  | [] => some (acc, [], k)
  | ')' :: _ => some (acc, cs, k)
  | '|' :: _ => some (acc, cs, k)
  | _ =>
    match parseC f .patom cs k with
    | none => none
    | some (a, rest, k') => parseC f (.pseq (.cat acc a)) rest k'
| f+1, .patom, cs, k =>
  match cs with
  | '(' :: rest =>
    match parseC f .palt rest (k+1) with
    | none => none
    | some (r, rest2, k') =>
      match rest2 with
      | ')' :: rest3 => applyPostfix (.grp k r) rest3 k'
      | _ => none
  | '[' :: '^' :: rest =>
    match parseClsItems rest.length rest (fun _ => false) with
    | none => none
    | some (p, rest2) => applyPostfix (.cls (fun x => !p x)) rest2 k
  | '[' :: rest =>
    match parseClsItems rest.length rest (fun _ => false) with
    | none => none
    | some (p, rest2) => applyPostfix (.cls p) rest2 k
  | ['\\'] => none
  | '\\' :: c :: rest =>
    if c = 'd' then applyPostfix digitC rest k
    else if c = 'w' then applyPostfix wordC rest k
    else if c = 's' then applyPostfix wsC rest k
    else if c = 'D' then applyPostfix (.cls (fun x => !Char.isDigit x)) rest k
    else if c = 'W' then applyPostfix (.cls (fun x => !wordChar x)) rest k
    else if c = 'S' then applyPostfix (.cls (fun x => !wsChar x)) rest k
    else if c = 'n' then applyPostfix (litC '\n') rest k
    else if c = 't' then applyPostfix (litC '\t') rest k
    else if c = 'r' then applyPostfix (litC '\r') rest k
    else if c.isAlphanum then none
    else applyPostfix (litC c) rest k
  | '.' :: rest => applyPostfix dotC rest k
  | c :: rest =>
    if c = '+' || c = '*' || c = '?' || c = '{' || c = '^' || c = '$'
    then none
    else applyPostfix (litC c) rest k
  | [] => none

/-- Parse a whole constraint string starting at group number `k`,
returning its expression and the next free group number, or fail. -/
def parseConstraint (s : String) (k : Nat) : Option (CRegex × Nat) :=
  match parseC (4 * s.data.length + 8) .palt s.data k with
  | some (r, [], k') => some (r, k')
  | _ => none

/-- Parse the constraint of every group segment, threading the global
group counter (the occurrence's own group takes the current number, its
constraint's groups the following ones); `none` models the
`regex::Regex::new(&re)?` failure at the end of `Wildcard::new`. -/
def parseSegs : List RawSeg → Nat → Option (List Seg × Nat)
| [], k => some ([], k)
| .lit l :: rest, k => (parseSegs rest k).map (fun p => (.lit l :: p.1, p.2))
| .grp t c :: rest, k =>
  match parseConstraint c (k + 1) with
  | none => none
  | some (r, k') => (parseSegs rest k').map (fun p => (.grp t k r :: p.1, p.2))

/-- First `some` produced along a priority-ordered list of alternatives:
this is how a backtracking-priority engine commits to a match. -/
def firstSome : List α → (α → Option β) → Option β
| [], _ => none
| a :: as, f =>
  match f a with
  | some b => some b
  | none => firstSome as f

/-- Anchored whole-string match of a segment list, returning the capture
table `(global group number, captured text)` of the match the engine
commits to.  Literal runs must match exactly; groups try their
constraint's prefix matches in priority order, recording their own span
and their constraint's inner captures. -/
def smatch : List Seg → List Char → Option (List (Nat × List Char))
| [], [] => some []
| [], _ :: _ => none
| .lit l :: segs, s =>
  if l.isPrefixOf s then smatch segs (s.drop l.length) else none
| .grp _ k r :: segs, s =>
  firstSome (cruns (crFuel r s) r s) fun p =>
    (smatch segs p.1).map fun caps =>
      ((k, s.take (s.length - p.1.length)) :: p.2) ++ caps

/-- The error type of `wildcard.rs`.  `RegexError` abstracts the payload
of the underlying `regex::Error`. -/
inductive WildcardError
| InvalidConstraint (s : String)
| MissingName (s : String)
| RegexError
deriving DecidableEq, Repr

/-- `pattern[a..b]` as character slicing. -/
def sliceT (tpl : List Char) (a b : Nat) : List Char := (tpl.drop a).take (b - a)

/-- The default constraint `.+` used when a placeholder gives none. -/
def defaultConstraint : String := ".+"

/-- Association-list lookup, the model of the `HashMap` lookups. -/
def lookupStr : List (String × α) → String → Option α
| [], _ => none
| (k, v) :: rest, n => if k = n then some v else lookupStr rest n

/-- `names.get_mut(name).unwrap().push(idx)`: append a repeat-occurrence
index to the entry of `name`. -/
def addDupe : List (String × List Nat) → String → Nat → List (String × List Nat)
| [], _, _ => []
| (k, ds) :: rest, n, i =>
  if k = n then (k, ds ++ [i]) :: rest else (k, ds) :: addDupe rest n i

/-- The compile loop of `Wildcard::new`: walk the occurrences in order,
emitting the escaped literal run before each occurrence and one group per
occurrence.  A first occurrence records its constraint (or the default)
and emits a named group; a repeat occurrence with an explicit constraint
fails with `InvalidConstraint`, otherwise it emits an unnamed group with
the recorded constraint and pushes its index onto the name's repeat list.
The final literal suffix is appended after the loop. -/
def compileOccs (tpl : List Char) :
    List Occ → Nat → Nat → List (String × String) → List (String × List Nat) →
    Except WildcardError (List RawSeg × List (String × List Nat))
| [], _, last, _, names => .ok ([.lit (sliceT tpl last tpl.length)], names)
| o :: os, idx, last, cons, names =>
  match lookupStr cons o.name with
  | some c0 =>
    if o.constraint.isSome then .error (.InvalidConstraint o.name)
    else
      (compileOccs tpl os (idx+1) o.stop cons (addDupe names o.name idx)).map
        fun p => (.lit (sliceT tpl last o.start) :: .grp none c0 :: p.1, p.2)
  | none =>
    let c := o.constraint.getD defaultConstraint
    (compileOccs tpl os (idx+1) o.stop ((o.name, c) :: cons) (names ++ [(o.name, [])])).map
      fun p => (.lit (sliceT tpl last o.start) :: .grp (some o.name) c :: p.1, p.2)

/-- A compiled wildcard pattern: the original template, the compiled
segments of the anchored regex (whose groups are numbered from 1, group 0
being the whole match), and the name-to-repeat-indices map. -/
structure Wildcard where
  pattern : String
  segs : List Seg
  names : List (String × List Nat)

/-- `Wildcard::new`: scan, run the compile loop, then compile the built
regex string (here: parse every constraint, numbering groups from 1),
surfacing constraint syntax outside the modelled fragment as
`RegexError`. -/
def Wildcard.new (pattern : String) : Except WildcardError Wildcard :=
  match compileOccs pattern.data (scanWildcards pattern.data) 0 0 [] [] with
  | .error e => .error e
  | .ok (raw, names) =>
    match parseSegs raw 1 with
    | none => .error .RegexError
    | some (segs, _) => .ok ⟨pattern, segs, names⟩

/-- `cap.get(i)`: the captured text of global group `i` in a match, or
`none` when the group did not participate.  The capture table lists the
most recent record of a group first. -/
def capGet : List (Nat × List Char) → Nat → Option (List Char)
| [], _ => none
| (i, v) :: rest, j => if i = j then some v else capGet rest j

/-- `cap.name(name)`: the capture of the group named `name` — the global
group allocated to the (unique) occurrence segment tagged with that
name. -/
def capName : List Seg → List (Nat × List Char) → String → Option (List Char)
| [], _, _ => none
| .lit _ :: segs, caps, n => capName segs caps n
| .grp tag k _ :: segs, caps, n =>
  if tag = some n then capGet caps k else capName segs caps n

/-- The extraction loop over `self.names`: read each name's named-group
capture, compare every repeat-occurrence index `d` against it by reading
global group `d + 1` (`cap.get(d + 1)` in the code — which is the repeat
occurrence's group only when no earlier constraint contains groups of its
own), and build the mapping. -/
def extractLoop (segs : List Seg) (caps : List (Nat × List Char)) :
    List (String × List Nat) → Option (List (String × String))
| [] => some []
| (name, dupes) :: rest =>
  match capName segs caps name with
  | none => none
  | some v =>
    if dupes.any (fun d => ((capGet caps (d + 1)).getD []) != v) then none
    else (extractLoop segs caps rest).map (fun m => (name, String.mk v) :: m)

/-- A successful extraction result: the name-to-value mapping. -/
structure WildcardMap where
  map : List (String × String)
deriving DecidableEq, Repr

/-- `Wildcard::extract`: anchored match, consistency check of every
repeat occurrence, mapping construction.  No-match is `none`. -/
def Wildcard.extract (w : Wildcard) (input : String) : Option WildcardMap :=
  match smatch w.segs input.data with
  | none => none
  | some caps =>
    match extractLoop w.segs caps w.names with
    | none => none
    | some m => some ⟨m⟩

/-- The render loop of `WildcardMap::apply`: literal text between
occurrences is copied verbatim (no escaping), each placeholder is replaced
by the mapped value, and a name absent from the mapping aborts with
`MissingName`. -/
def applyOccs (tpl : List Char) (m : List (String × String)) :
    List Occ → Nat → Except WildcardError (List Char)
| [], last => .ok (sliceT tpl last tpl.length)
| o :: os, last =>
  match lookupStr m o.name with
  | none => .error (.MissingName o.name)
  | some v =>
    (applyOccs tpl m os o.stop).map
      fun rest => sliceT tpl last o.start ++ v.data ++ rest

/-- `WildcardMap::apply`: re-scan the input template and substitute. -/
def WildcardMap.apply (wm : WildcardMap) (input : String) : Except WildcardError String :=
  (applyOccs input.data wm.map (scanWildcards input.data) 0).map String.mk

/-- The `ok` part of an `Except`, for stating concrete compile results. -/
def exceptOk : Except ε α → Option α
| .ok a => some a
| .error _ => none

/-- Reference description of the distinct names recorded by the compile
loop, in first-occurrence order. -/
def newNames : List String → List Occ → List String
| _, [] => []
| seen, o :: os =>
  if o.name ∈ seen then newNames seen os
  else o.name :: newNames (o.name :: seen) os

/-- Whether some occurrence of an already-seen placeholder name supplies
an explicit constraint (the condition for `InvalidConstraint`). -/
def hasDupConstraint : List String → List Occ → Bool
| _, [] => false
| seen, o :: os =>
  (decide (o.name ∈ seen) && o.constraint.isSome) || hasDupConstraint (o.name :: seen) os

/-- The first occurrence (in template order) whose name the mapping does
not bind, if any. -/
def firstMissingName (m : List (String × String)) : List Occ → Option String
| [] => none
| o :: os =>
  if (lookupStr m o.name).isSome then firstMissingName m os else some o.name

/-! ### Basic lemmas about the matching primitives -/

theorem firstSome_mem_sel [DecidableEq α] {l : List α} {f : α → Option β} {a0 : α} {b : β}
    (hsel : ∀ a ∈ l, a ≠ a0 → f a = none) (hmem : a0 ∈ l) (hb : f a0 = some b) :
    firstSome l f = some b := by
  induction l with
  | nil => cases hmem
  | cons a as ih =>
    by_cases ha : a = a0
    · subst ha
      simp [firstSome, hb]
    · have h1 := hsel a (List.mem_cons_self a as) ha
      simp only [firstSome, h1]
      exact ih (fun x hx hne => hsel x (List.mem_cons_of_mem _ hx) hne)
        (List.mem_of_ne_of_mem (fun h => ha h.symm) hmem)

theorem smatch_nil_inv {s : List Char} {caps : List (Nat × List Char)}
    (h : smatch [] s = some caps) : s = [] ∧ caps = [] := by
  cases s with
  | nil => simp [smatch] at h; simp [← h]
  | cons c cs => simp [smatch] at h

theorem smatch_lit_inv {l : List Char} {segs : List Seg} {s : List Char}
    {caps : List (Nat × List Char)} (h : smatch (.lit l :: segs) s = some caps) :
    l ++ s.drop l.length = s ∧ smatch segs (s.drop l.length) = some caps := by
  simp only [smatch] at h
  by_cases hp : l.isPrefixOf s
  · rw [if_pos hp] at h
    have hpre : l <+: s := List.isPrefixOf_iff_prefix.mp hp
    obtain ⟨t, ht⟩ := hpre
    constructor
    · conv_rhs => rw [← ht]
      rw [← ht, List.drop_left]
    · exact h
  · rw [if_neg hp] at h; cases h

theorem cruns_grpFree : ∀ (f : Nat) (r : CRegex) (s : List Char)
    (p : List Char × List (Nat × List Char)),
    grpFree r = true → p ∈ cruns f r s → p.2 = [] := by
  intro f
  induction f with
  | zero => intro r s p hg h; simp [cruns] at h
  | succ f ih =>
    intro r s p hg h
    cases r with
    | cls q =>
      cases s with
      | nil => simp [cruns] at h
      | cons c cs =>
        simp only [cruns] at h
        by_cases hq : q c = true
        · simp [hq] at h
          rw [h]
        · simp [hq] at h
    | eps =>
      simp only [cruns, List.mem_singleton] at h
      rw [h]
    | cat r1 r2 =>
      simp only [grpFree, Bool.and_eq_true] at hg
      simp only [cruns, List.mem_flatMap, List.mem_map] at h
      obtain ⟨p1, hp1, q, hq, hpe⟩ := h
      rw [← hpe]
      simp [ih r2 p1.1 q hg.2 hq, ih r1 s p1 hg.1 hp1]
    | alt r1 r2 =>
      simp only [grpFree, Bool.and_eq_true] at hg
      simp only [cruns, List.mem_append] at h
      rcases h with h | h
      · exact ih r1 s p hg.1 h
      · exact ih r2 s p hg.2 h
    | star r =>
      simp only [grpFree] at hg
      simp only [cruns, List.mem_append, List.mem_flatMap, List.mem_map,
        List.mem_filter, List.mem_singleton] at h
      rcases h with ⟨p1, ⟨hp1, _⟩, q, hq, hpe⟩ | h
      · rw [← hpe]
        simp [ih (.star r) p1.1 q (by simpa [grpFree] using hg) hq, ih r s p1 hg hp1]
      · rw [h]
    | grp k r => simp [grpFree] at hg

theorem cruns_eps_mem {f : Nat} {s : List Char} :
    ((s, []) : List Char × List (Nat × List Char)) ∈ cruns (f + 1) .eps s := by
  simp [cruns]

theorem cruns_cat_mem {f : Nat} {r1 r2 : CRegex} {s t u : List Char}
    {c1 c2 : List (Nat × List Char)}
    (h1 : (t, c1) ∈ cruns f r1 s) (h2 : (u, c2) ∈ cruns f r2 t) :
    (u, c2 ++ c1) ∈ cruns (f + 1) (.cat r1 r2) s := by
  simp only [cruns, List.mem_flatMap]
  exact ⟨(t, c1), h1, List.mem_map.mpr ⟨(u, c2), h2, rfl⟩⟩

/-! ### Lemmas about the association-list operations -/

theorem lookupStr_isSome_iff (l : List (String × α)) (n : String) :
    (lookupStr l n).isSome = true ↔ n ∈ l.map Prod.fst := by
  induction l with
  | nil => simp [lookupStr]
  | cons kv rest ih =>
    obtain ⟨k, v⟩ := kv
    by_cases hk : k = n
    · subst hk; simp [lookupStr]
    · simp [lookupStr, hk, Ne.symm hk, ih]

theorem addDupe_keys (l : List (String × List Nat)) (n : String) (i : Nat) :
    (addDupe l n i).map Prod.fst = l.map Prod.fst := by
  induction l with
  | nil => simp [addDupe]
  | cons kv rest ih =>
    obtain ⟨k, ds⟩ := kv
    by_cases hk : k = n
    · simp [addDupe, hk]
    · simp [addDupe, hk, ih]

theorem exceptMap_ok {f : α → β} {e : Except ε α} {b : β}
    (h : e.map f = .ok b) : ∃ a, e = .ok a ∧ b = f a := by
  cases e with
  | ok a => exact ⟨a, rfl, by simpa [Except.map] using h.symm⟩
  | error err => simp [Except.map] at h

theorem exceptMap_error {f : α → β} {e : Except ε α} {err : ε} :
    e.map f = .error err ↔ e = .error err := by
  cases e with
  | ok a => simp [Except.map]
  | error e0 => simp [Except.map]

/-! ### Reference descriptions of the compile loop's bookkeeping -/

theorem newNames_not_seen : ∀ (occs : List Occ) (seen : List String),
    (∀ n ∈ newNames seen occs, n ∉ seen) ∧ (newNames seen occs).Nodup := by
  intro occs
  induction occs with
  | nil => intro seen; simp [newNames]
  | cons o os ih =>
    intro seen
    by_cases hc : o.name ∈ seen
    · simpa [newNames, hc] using ih seen
    · obtain ⟨ihm, ihn⟩ := ih (o.name :: seen)
      rw [newNames, if_neg hc]
      refine ⟨?_, ?_⟩
      · intro n hn
        rcases List.mem_cons.mp hn with h1 | h1
        · exact h1 ▸ hc
        · exact fun hns => ihm n h1 (List.mem_cons_of_mem _ hns)
      · refine List.nodup_cons.mpr ⟨fun hmem => ?_, ihn⟩
        exact ihm o.name hmem (List.mem_cons_self _ _)

theorem mem_newNames : ∀ (occs : List Occ) (seen : List String) (n : String),
    n ∈ newNames seen occs ↔ (n ∉ seen ∧ n ∈ occs.map Occ.name) := by
  intro occs
  induction occs with
  | nil => intro seen n; simp [newNames]
  | cons o os ih =>
    intro seen n
    by_cases hc : o.name ∈ seen
    · rw [newNames, if_pos hc, ih]
      constructor
      · rintro ⟨h1, h2⟩
        exact ⟨h1, List.mem_cons.mpr (Or.inr h2)⟩
      · rintro ⟨h1, h2⟩
        rcases List.mem_cons.mp h2 with h3 | h3
        · exact absurd (h3 ▸ hc) h1
        · exact ⟨h1, h3⟩
    · rw [newNames, if_neg hc, List.mem_cons, ih]
      by_cases hn : n = o.name
      · subst hn
        simp [hc]
      · simp only [hn, false_or]
        constructor
        · rintro ⟨h1, h2⟩
          refine ⟨fun hns => h1 (List.mem_cons_of_mem _ hns), List.mem_cons.mpr (Or.inr h2)⟩
        · rintro ⟨h1, h2⟩
          rcases List.mem_cons.mp h2 with h3 | h3
          · exact absurd h3 hn
          · refine ⟨?_, h3⟩
            intro hmem
            rcases List.mem_cons.mp hmem with h4 | h4
            · exact hn h4
            · exact h1 h4

theorem extractLoop_keys : ∀ (names : List (String × List Nat)) (segs : List Seg)
    (caps : List (Nat × List Char)) (m : List (String × String)),
    extractLoop segs caps names = some m → m.map Prod.fst = names.map Prod.fst := by
  intro names
  induction names with
  | nil => intro segs caps m h; simp [extractLoop] at h; simp [← h]
  | cons e rest ih =>
    intro segs caps m h
    obtain ⟨name, dupes⟩ := e
    cases hcn : capName segs caps name with
    | none => simp only [extractLoop, hcn] at h; cases h
    | some v =>
      simp only [extractLoop, hcn] at h
      by_cases hd : (dupes.any fun d => ((capGet caps (d + 1)).getD []) != v) = true
      · rw [if_pos hd] at h; cases h
      · rw [if_neg hd] at h
        cases hrec : extractLoop segs caps rest with
        | none => rw [hrec] at h; cases h
        | some m' =>
          rw [hrec] at h
          simp only [Option.map_some'] at h
          rw [← Option.some_inj.mp h]
          simp [ih segs caps m' hrec]

/-! ### Characterization of the compile loop -/

theorem compile_keys : ∀ (occs : List Occ) (tpl : List Char) (idx last : Nat)
    (cons : List (String × String)) (names0 : List (String × List Nat))
    (raw : List RawSeg) (namesF : List (String × List Nat)),
    compileOccs tpl occs idx last cons names0 = .ok (raw, namesF) →
    namesF.map Prod.fst = names0.map Prod.fst ++ newNames (cons.map Prod.fst) occs := by
  intro occs
  induction occs with
  | nil =>
    intro tpl idx last cons names0 raw namesF h
    simp only [compileOccs] at h
    injection h with h1
    have h2 := congrArg Prod.snd h1
    simp only at h2
    rw [← h2, newNames, List.append_nil]
  | cons o os ih =>
    intro tpl idx last cons names0 raw namesF h
    simp only [compileOccs] at h
    cases hlu : lookupStr cons o.name with
    | some c0 =>
      simp only [hlu] at h
      by_cases hoc : o.constraint.isSome = true
      · rw [if_pos hoc] at h; cases h
      · rw [if_neg hoc] at h
        obtain ⟨p, hp, hraw⟩ := exceptMap_ok h
        obtain ⟨raw', nm'⟩ := p
        have hF : namesF = nm' := by
          have := congrArg Prod.snd hraw
          simpa using this
        have hrec := ih tpl (idx+1) o.stop cons (addDupe names0 o.name idx) raw' nm' hp
        rw [hF, hrec, addDupe_keys]
        have hin : o.name ∈ cons.map Prod.fst :=
          (lookupStr_isSome_iff _ _).mp (by rw [hlu]; rfl)
        rw [newNames, if_pos hin]
    | none =>
      simp only [hlu] at h
      obtain ⟨p, hp, hraw⟩ := exceptMap_ok h
      obtain ⟨raw', nm'⟩ := p
      have hF : namesF = nm' := by
        have := congrArg Prod.snd hraw
        simpa using this
      have hni : o.name ∉ cons.map Prod.fst := by
        intro hm
        have := (lookupStr_isSome_iff cons o.name).mpr hm
        rw [hlu] at this
        cases this
      have hrec := ih tpl (idx+1) o.stop ((o.name, o.constraint.getD defaultConstraint) :: cons)
        (names0 ++ [(o.name, [])]) raw' nm' hp
      rw [hF, hrec]
      rw [newNames, if_neg hni]
      simp [List.append_assoc]

theorem hasDup_congr : ∀ (os : List Occ) (s1 s2 : List String),
    (∀ n, n ∈ s1 ↔ n ∈ s2) → hasDupConstraint s1 os = hasDupConstraint s2 os := by
  intro os
  induction os with
  | nil => intro s1 s2 h; rfl
  | cons o os' ih =>
    intro s1 s2 h
    simp only [hasDupConstraint]
    rw [decide_eq_decide.mpr (h o.name)]
    rw [ih (o.name :: s1) (o.name :: s2) ?_]
    intro n
    simp [List.mem_cons, h n]

theorem compile_error_iff : ∀ (occs : List Occ) (tpl : List Char) (idx last : Nat)
    (cons : List (String × String)) (names0 : List (String × List Nat)),
    (∃ n, compileOccs tpl occs idx last cons names0 = .error (.InvalidConstraint n)) ↔
    hasDupConstraint (cons.map Prod.fst) occs = true := by
  intro occs
  induction occs with
  | nil =>
    intro tpl idx last cons names0
    simp only [compileOccs, hasDupConstraint]
    constructor
    · rintro ⟨n, hn⟩; cases hn
    · intro h; cases h
  | cons o os ih =>
    intro tpl idx last cons names0
    cases hlu : lookupStr cons o.name with
    | some c0 =>
      simp only [compileOccs, hasDupConstraint, hlu]
      have hin : o.name ∈ cons.map Prod.fst :=
        (lookupStr_isSome_iff _ _).mp (by rw [hlu]; rfl)
      by_cases hoc : o.constraint.isSome = true
      · rw [if_pos hoc]
        constructor
        · intro _
          simp [hin, hoc]
        · intro _
          exact ⟨o.name, rfl⟩
      · rw [if_neg hoc]
        have hoc' : o.constraint.isSome = false := by
          rw [← Bool.not_eq_true]; exact hoc
        constructor
        · rintro ⟨n, hn⟩
          rw [exceptMap_error] at hn
          have h1 : hasDupConstraint (cons.map Prod.fst) os = true :=
            (ih tpl (idx+1) o.stop cons (addDupe names0 o.name idx)).mp ⟨n, hn⟩
          rw [hasDup_congr os (o.name :: cons.map Prod.fst) (cons.map Prod.fst) ?_]
          · simp [h1]
          · intro n'
            constructor
            · intro hm
              rcases List.mem_cons.mp hm with h2 | h2
              · exact h2 ▸ hin
              · exact h2
            · exact fun hm => List.mem_cons_of_mem _ hm
        · intro hd
          have hd2 : hasDupConstraint (o.name :: cons.map Prod.fst) os = true := by
            rcases Bool.or_eq_true_iff.mp hd with h1 | h1
            · exfalso
              rw [hoc'] at h1
              simp at h1
            · exact h1
          have hd3 : hasDupConstraint (cons.map Prod.fst) os = true := by
            rw [hasDup_congr os (cons.map Prod.fst) (o.name :: cons.map Prod.fst) ?_]
            · exact hd2
            · intro n'
              constructor
              · exact fun hm => List.mem_cons_of_mem _ hm
              · intro hm
                rcases List.mem_cons.mp hm with h2 | h2
                · exact h2 ▸ hin
                · exact h2
          obtain ⟨n, hn⟩ := (ih tpl (idx+1) o.stop cons (addDupe names0 o.name idx)).mpr hd3
          exact ⟨n, by rw [exceptMap_error]; exact hn⟩
    | none =>
      simp only [compileOccs, hasDupConstraint, hlu]
      have hni : o.name ∉ cons.map Prod.fst := by
        intro hm
        have := (lookupStr_isSome_iff cons o.name).mpr hm
        rw [hlu] at this
        cases this
      have hdec : decide (o.name ∈ cons.map Prod.fst) = false := by
        simp [hni]
      rw [hdec]
      simp only [Bool.false_and, Bool.false_or]
      have hrec := ih tpl (idx+1) o.stop ((o.name, o.constraint.getD defaultConstraint) :: cons)
        (names0 ++ [(o.name, [])])
      simp only [List.map_cons] at hrec
      constructor
      · rintro ⟨n, hn⟩
        rw [exceptMap_error] at hn
        exact hrec.mp ⟨n, hn⟩
      · intro hd
        obtain ⟨n, hn⟩ := hrec.mpr hd
        exact ⟨n, by rw [exceptMap_error]; exact hn⟩

/-! ### Inversion of the top-level operations -/

theorem new_inv {T : String} {w : Wildcard} (h : Wildcard.new T = .ok w) :
    ∃ raw kf, compileOccs T.data (scanWildcards T.data) 0 0 [] [] = .ok (raw, w.names) ∧
      parseSegs raw 1 = some (w.segs, kf) := by
  unfold Wildcard.new at h
  cases hC : compileOccs T.data (scanWildcards T.data) 0 0 [] [] with
  | error e => simp only [hC] at h; cases h
  | ok p =>
    obtain ⟨raw, names⟩ := p
    simp only [hC] at h
    cases hP : parseSegs raw 1 with
    | none => simp only [hP] at h; cases h
    | some q =>
      obtain ⟨segs, kf⟩ := q
      simp only [hP] at h
      have hw := Except.ok.inj h
      subst hw
      exact ⟨raw, kf, rfl, hP⟩

theorem extract_inv {w : Wildcard} {input : String} {M : WildcardMap}
    (h : w.extract input = some M) :
    ∃ caps, smatch w.segs input.data = some caps ∧
      extractLoop w.segs caps w.names = some M.map := by
  unfold Wildcard.extract at h
  cases hS : smatch w.segs input.data with
  | none => simp only [hS] at h; cases h
  | some caps =>
    simp only [hS] at h
    cases hE : extractLoop w.segs caps w.names with
    | none => simp only [hE] at h; cases h
    | some m =>
      simp only [hE] at h
      have hm := Option.some_inj.mp h
      subst hm
      exact ⟨caps, rfl, hE⟩

theorem extract_congr {w1 w2 : Wildcard} (hs : w1.segs = w2.segs)
    (hn : w1.names = w2.names) (C : String) : w1.extract C = w2.extract C := by
  unfold Wildcard.extract
  rw [hs, hn]

/-- Render on occurrences fails with `MissingName` of the first occurrence
whose name the mapping does not bind. -/
theorem applyOccs_missing : ∀ (occs : List Occ) (tpl : List Char)
    (m : List (String × String)) (last : Nat) (n : String),
    firstMissingName m occs = some n →
    applyOccs tpl m occs last = .error (.MissingName n) := by
  intro occs
  induction occs with
  | nil => intro tpl m last n h; simp [firstMissingName] at h
  | cons o os ih =>
    intro tpl m last n h
    simp only [firstMissingName] at h
    by_cases hl : (lookupStr m o.name).isSome = true
    · rw [if_pos hl] at h
      obtain ⟨v, hv⟩ := Option.isSome_iff_exists.mp hl
      simp only [applyOccs, hv]
      rw [ih tpl m o.stop n h]
      rfl
    · rw [if_neg hl] at h
      have hnone : lookupStr m o.name = none := by
        cases hx : lookupStr m o.name with
        | none => rfl
        | some v => exact absurd (by rw [hx]; rfl) hl
      simp only [applyOccs, hnone]
      rw [Option.some_inj.mp h]

/-- C9: extraction never raises.  For every compiled wildcard and every
candidate string, `extract` is a total function whose result is either
`none` (no-match, a normal outcome) or `some` mapping — never an error
value of any kind (its type has no error constructor at all). -/
theorem claim_extract_never_raises : ∀ (w : Wildcard) (C : String),
    w.extract C = none ∨ ∃ M, w.extract C = some M := by
  intro w C
  cases h : w.extract C with
  | none => exact Or.inl rfl
  | some M => exact Or.inr ⟨M, rfl⟩

/-- C7: constraint enforcement.  The compiled template
`"path/to/{name,\d+}.txt"` extracts `name = "0123"` from
`"path/to/0123.txt"` and does not match `"path/to/abc.txt"`. -/
theorem claim_constraint_enforcement :
    (exceptOk (Wildcard.new "path/to/\x7bname,\\d+\x7d.txt")).map
      (fun w => (w.extract "path/to/0123.txt", w.extract "path/to/abc.txt")) =
    some (some ⟨[("name", "0123")]⟩, none) := rfl

/-- C6: render fails atomically on a missing name.  If the template
contains a placeholder whose name the mapping does not bind, `apply`
returns `MissingName` of the first such name — an error, never a partially
substituted string. -/
theorem claim_missing_name : ∀ (M : WildcardMap) (T : String) (n : String),
    firstMissingName M.map (scanWildcards T.data) = some n →
    M.apply T = .error (.MissingName n) := by
  intro M T n h
  unfold WildcardMap.apply
  rw [applyOccs_missing _ _ _ _ _ h]
  rfl

/-- Witness for the missing-name claim: applying `{a ↦ "1"}` to
`"{a}-{b}"` fails with `MissingName "b"`. -/
theorem claim_missing_name_witness :
    (WildcardMap.mk [("a", "1")]).apply "{a}-{b}" = .error (.MissingName "b") :=
  claim_missing_name ⟨[("a", "1")]⟩ "{a}-{b}" "b" rfl

/-- C3: duplicate-constraint rejection.  Compiling fails with
`InvalidConstraint` exactly when some occurrence of an already-seen
placeholder name supplies an explicit constraint; `"{a,\d+}/{a,\w+}"`
fails with `InvalidConstraint "a"` while `"{a,\d+}/{a}"` compiles (the
second occurrence reuses the first constraint). -/
theorem claim_duplicate_constraint :
    (∀ T : String, (∃ n, Wildcard.new T = .error (.InvalidConstraint n)) ↔
      hasDupConstraint [] (scanWildcards T.data) = true) ∧
    Wildcard.new "\x7ba,\\d+\x7d/\x7ba,\\w+\x7d" = .error (.InvalidConstraint "a") ∧
    (∃ w, Wildcard.new "\x7ba,\\d+\x7d/\x7ba\x7d" = .ok w) := by
  refine ⟨?_, rfl, ⟨_, rfl⟩⟩
  intro T
  constructor
  · rintro ⟨n, hn⟩
    unfold Wildcard.new at hn
    cases hC : compileOccs T.data (scanWildcards T.data) 0 0 [] [] with
    | error e =>
      simp only [hC] at hn
      have he := Except.error.inj hn
      have hdup := (compile_error_iff (scanWildcards T.data) T.data 0 0 [] []).mp
        ⟨n, by rw [hC, he]⟩
      simpa using hdup
    | ok p =>
      obtain ⟨raw, names⟩ := p
      simp only [hC] at hn
      cases hP : parseSegs raw 1 with
      | none =>
        simp only [hP] at hn
        cases Except.error.inj hn
      | some q =>
        obtain ⟨segs, kf⟩ := q
        simp only [hP] at hn
        cases hn
  · intro hd
    obtain ⟨n, hn⟩ := (compile_error_iff (scanWildcards T.data) T.data 0 0 [] []).mpr
      (by simpa using hd)
    refine ⟨n, ?_⟩
    unfold Wildcard.new
    simp only [hn]

/-- Witness for the duplicate-constraint claim at another concrete
template with a repeated constrained name. -/
theorem claim_duplicate_constraint_witness :
    ∃ n, Wildcard.new "\x7bz,\\d+\x7d/\x7bz,\\w+\x7d" = .error (.InvalidConstraint n) :=
  (claim_duplicate_constraint.1 "\x7bz,\\d+\x7d/\x7bz,\\w+\x7d").mpr (by decide)

/-- C10: mapping key-set invariant.  Whenever extraction on a compiled
template returns a mapping, the mapping's keys are exactly the distinct
placeholder names of that template: no duplicates, and a name is bound iff
it occurs in the template's placeholder scan. -/
theorem claim_mapping_keys : ∀ (T C : String) (w : Wildcard) (M : WildcardMap),
    Wildcard.new T = .ok w → w.extract C = some M →
    (M.map.map Prod.fst).Nodup ∧
      ∀ n, (lookupStr M.map n).isSome = true ↔ n ∈ (scanWildcards T.data).map Occ.name := by
  intro T C w M hnew hext
  obtain ⟨raw, kf, hC, hP⟩ := new_inv hnew
  obtain ⟨caps, hS, hE⟩ := extract_inv hext
  have hkeys : w.names.map Prod.fst = newNames [] (scanWildcards T.data) := by
    simpa using compile_keys _ _ _ _ _ _ _ _ hC
  have hkeysM : M.map.map Prod.fst = w.names.map Prod.fst := extractLoop_keys _ _ _ _ hE
  constructor
  · rw [hkeysM, hkeys]
    exact (newNames_not_seen _ _).2
  · intro n
    rw [lookupStr_isSome_iff, hkeysM, hkeys, mem_newNames]
    simp

/-- Witness for the key-set claim: extracting `"wv"` with `"{u}v"` binds
exactly the key `u`. -/
theorem claim_mapping_keys_witness : ∃ (w : Wildcard) (M : WildcardMap),
    Wildcard.new "{u}v" = .ok w ∧ w.extract "wv" = some M ∧
      ((M.map.map Prod.fst).Nodup ∧
        ∀ n, (lookupStr M.map n).isSome = true ↔
          n ∈ (scanWildcards ("{u}v" : String).data).map Occ.name) := by
  refine ⟨_, _, rfl, rfl, ?_⟩
  exact claim_mapping_keys "{u}v" "wv" _ _ rfl rfl

/-- C4: literal escaping.  Literal text is escaped: a template
with no placeholders compiles to its escaped self and extraction succeeds
(with the empty mapping) exactly on the identical string — metacharacters
in the template have no wildcard meaning.  In particular
`"a.b/{name}.txt"` does not match `"axb/foo.txt"`: the `.` is literal. -/
theorem claim_literal_escaping :
    (∀ (T C : String) (w : Wildcard), scanWildcards T.data = [] → Wildcard.new T = .ok w →
      (w.extract C = some ⟨[]⟩ ↔ C = T)) ∧
    (exceptOk (Wildcard.new "a.b/{name}.txt")).map (fun w => w.extract "axb/foo.txt") =
      some none := by
  refine ⟨?_, rfl⟩
  intro T C w hscan hnew
  obtain ⟨raw, kf, hC, hP⟩ := new_inv hnew
  rw [hscan] at hC
  simp only [compileOccs] at hC
  have hR : raw = [.lit (sliceT T.data 0 T.data.length)] := by
    have := congrArg Prod.fst (Except.ok.inj hC)
    simpa using this.symm
  have hN : w.names = [] := by
    have := congrArg Prod.snd (Except.ok.inj hC)
    simpa using this.symm
  rw [hR] at hP
  simp only [parseSegs, Option.map_some'] at hP
  have hsegs : w.segs = [.lit (sliceT T.data 0 T.data.length)] :=
    (congrArg Prod.fst (Option.some_inj.mp hP)).symm
  have hslice : sliceT T.data 0 T.data.length = T.data := by
    simp [sliceT]
  constructor
  · intro hext
    obtain ⟨caps, hS, _⟩ := extract_inv hext
    rw [hsegs] at hS
    obtain ⟨hpre, hrest⟩ := smatch_lit_inv hS
    obtain ⟨hnil, _⟩ := smatch_nil_inv hrest
    rw [hnil, List.append_nil] at hpre
    rw [hslice] at hpre
    exact (String.ext hpre).symm
  · intro hCT
    subst hCT
    unfold Wildcard.extract
    rw [hsegs, hN, hslice]
    have hmatch : smatch [.lit C.data] C.data = some [] := by
      simp only [smatch]
      rw [if_pos (List.isPrefixOf_iff_prefix.mpr List.prefix_rfl), List.drop_length]
      rfl
    rw [hmatch]
    rfl

/-- Witness for the literal-escaping claim: the placeholder-free template
`"a.b"` matches exactly itself. -/
theorem claim_literal_escaping_witness : ∃ w, Wildcard.new "a.b" = .ok w ∧
    (w.extract "a.b" = some ⟨[]⟩ ↔ ("a.b" : String) = "a.b") := by
  refine ⟨_, rfl, ?_⟩
  exact claim_literal_escaping.1 "a.b" "a.b" _ rfl rfl

/-! ### The default constraint `.+` -/

theorem star_dot_nil_mem : ∀ (s : List Char) (f : Nat),
    (∀ c ∈ s, c ≠ '\n') → s.length + 1 ≤ f →
    (([], []) : List Char × List (Nat × List Char)) ∈ cruns f (.star dotC) s := by
  intro s
  induction s with
  | nil =>
    intro f hnl hf
    obtain ⟨f1, rfl⟩ : ∃ f1, f = f1 + 1 := ⟨f - 1, by omega⟩
    simp only [cruns]
    exact List.mem_append_right _ (List.mem_singleton.mpr rfl)
  | cons c cs ih =>
    intro f hnl hf
    obtain ⟨f1, rfl⟩ : ∃ f1, f = f1 + 1 := ⟨f - 1, by omega⟩
    simp only [cruns]
    refine List.mem_append_left _ ?_
    rw [List.mem_flatMap]
    refine ⟨(cs, []), ?_, ?_⟩
    · rw [List.mem_filter]
      constructor
      · have hc : (c != '\n') = true := by
          have := hnl c (List.mem_cons_self _ _)
          simpa using this
        obtain ⟨f2, rfl⟩ : ∃ f2, f1 = f2 + 1 := ⟨f1 - 1, by simp at hf; omega⟩
        simp [cruns, dotC, hc]
      · simp
    · refine List.mem_map.mpr ⟨([], []), ?_, rfl⟩
      refine ih f1 (fun x hx => hnl x (List.mem_cons_of_mem _ hx)) ?_
      simp only [List.length_cons] at hf
      omega

theorem dot_plus_nil_mem : ∀ (c : Char) (cs : List Char),
    (∀ x ∈ c :: cs, x ≠ '\n') →
    (([], []) : List Char × List (Nat × List Char)) ∈
      cruns (crFuel (.cat .eps (.cat dotC (.star dotC))) (c :: cs))
      (.cat .eps (.cat dotC (.star dotC))) (c :: cs) := by
  intro c cs hnl
  obtain ⟨f3, hF, hf3⟩ : ∃ f3,
      crFuel (.cat .eps (.cat dotC (.star dotC))) (c :: cs) = f3 + 1 + 1 + 1 ∧
      cs.length + 1 ≤ f3 := by
    refine ⟨crFuel (.cat .eps (.cat dotC (.star dotC))) (c :: cs) - 3, ?_, ?_⟩ <;>
    · unfold crFuel
      simp [crSize, dotC, List.length_cons]
      omega
  rw [hF]
  have hc : (c != '\n') = true := by
    have := hnl c (List.mem_cons_self _ _)
    simpa using this
  have hdot : ((cs, []) : List Char × List (Nat × List Char)) ∈
      cruns (f3 + 1) dotC (c :: cs) := by
    simp [cruns, dotC, hc]
  have hstar : (([], []) : List Char × List (Nat × List Char)) ∈
      cruns (f3 + 1) (.star dotC) cs :=
    star_dot_nil_mem cs (f3 + 1) (fun x hx => hnl x (List.mem_cons_of_mem _ hx)) (by omega)
  exact cruns_cat_mem cruns_eps_mem (cruns_cat_mem hdot hstar)

/-- C5 counterexample: the claim says the default constraint captures any
non-empty candidate, but the regex crate's `.` does not match newline, so
`"{a}"` fails to extract from the non-empty candidate `"\n"`. -/
theorem claim_default_constraint_cex :
    ("\n" : String) ≠ "" ∧
    (exceptOk (Wildcard.new "{a}")).map (fun w => w.extract "\n") = some none :=
  ⟨by decide, rfl⟩

/-- C5 amended: the default constraint is one-or-more of any character
except newline (non-empty, greedy).  For the template `"{a}"`, extract
returns `{a ↦ C}` for every non-empty candidate `C` containing no newline,
and no-match for the empty string. -/
theorem claim_default_constraint_amended : ∀ (w : Wildcard), Wildcard.new "{a}" = .ok w →
    (∀ C : String, C ≠ "" → (∀ c ∈ C.data, c ≠ '\n') → w.extract C = some ⟨[("a", C)]⟩) ∧
    w.extract "" = none := by
  intro w hw
  have hval : Wildcard.new "{a}" = .ok
      ⟨"{a}", [.lit [], .grp (some "a") 1 (.cat .eps (.cat dotC (.star dotC))), .lit []],
        [("a", [])]⟩ := rfl
  rw [hval] at hw
  have hwv := Except.ok.inj hw
  subst hwv
  constructor
  · intro C hne hnl
    obtain ⟨c, cs, hcd⟩ : ∃ c cs, C.data = c :: cs := by
      cases hx : C.data with
      | nil =>
        exfalso
        apply hne
        apply String.ext
        rw [hx]
      | cons c cs => exact ⟨c, cs, rfl⟩
    unfold Wildcard.extract
    have hmem : (([], []) : List Char × List (Nat × List Char)) ∈
        cruns (crFuel (.cat .eps (.cat dotC (.star dotC))) C.data)
        (.cat .eps (.cat dotC (.star dotC))) C.data := by
      rw [hcd]
      exact dot_plus_nil_mem c cs (by rw [← hcd]; exact hnl)
    have hsm : smatch
        [.lit [], .grp (some "a") 1 (.cat .eps (.cat dotC (.star dotC))), .lit []]
        C.data = some [(1, C.data)] := by
      simp only [smatch, List.isPrefixOf, if_true, List.drop_zero, List.length_nil]
      refine firstSome_mem_sel ?_ hmem ?_
      · intro p hp hne2
        have hg : p.2 = [] := cruns_grpFree _ _ _ p (by decide) hp
        obtain ⟨t, c2⟩ := p
        simp only at hg
        subst hg
        cases t with
        | nil => exact absurd rfl hne2
        | cons x xs => rfl
      · simp [smatch, List.take_length]
    rw [hsm]
    rfl
  · rfl

/-- Witness for the amended default-constraint claim at `C = "xy"`. -/
theorem claim_default_constraint_witness : ∃ w,
    Wildcard.new "{a}" = .ok w ∧ w.extract "xy" = some ⟨[("a", "xy")]⟩ := by
  obtain ⟨w, hw⟩ : ∃ w, Wildcard.new "{a}" = .ok w := ⟨_, rfl⟩
  exact ⟨w, hw, (claim_default_constraint_amended w hw).1 "xy" (by decide) (by decide)⟩

/-! ### Whitespace handling in the scanner -/

/-- C8 counterexample: the claim says `"{ a , \d+ }"` behaves like
`"{a,\d+}"`, but the greedy `[^{}]+` in the scanner keeps the whitespace
before the closing brace inside the constraint, so the first template
requires a trailing space: it rejects `"5"`, which the second accepts. -/
theorem claim_whitespace_stripping_cex :
    (exceptOk (Wildcard.new "\x7b a , \\d+ \x7d")).map (fun w => w.extract "5") = some none ∧
    (exceptOk (Wildcard.new "\x7ba,\\d+\x7d")).map (fun w => w.extract "5") =
      some (some ⟨[("a", "5")]⟩) :=
  ⟨rfl, rfl⟩

/-- C8 amended: whitespace inside the braces around the name and
immediately after the separating comma is stripped, but whitespace between
the end of the constraint and the closing brace is captured as part of the
constraint.  Thus `"{ a , \d+ }"` scans to name `a` with constraint
`"\d+ "` (trailing space retained) and behaves exactly like
`"{a,\d+ }"` — not like `"{a,\d+}"`. -/
theorem claim_whitespace_stripping_amended :
    scanWildcards ("\x7b a , \\d+ \x7d" : String).data = [⟨0, 11, "a", some "\\d+ "⟩] ∧
    (∀ (w1 w2 : Wildcard) (C : String), Wildcard.new "\x7b a , \\d+ \x7d" = .ok w1 →
      Wildcard.new "\x7ba,\\d+ \x7d" = .ok w2 → w1.extract C = w2.extract C) := by
  refine ⟨by decide, ?_⟩
  intro w1 w2 C h1 h2
  have hseq : (exceptOk (Wildcard.new "\x7b a , \\d+ \x7d")).map Wildcard.segs =
      (exceptOk (Wildcard.new "\x7ba,\\d+ \x7d")).map Wildcard.segs := rfl
  have hneq : (exceptOk (Wildcard.new "\x7b a , \\d+ \x7d")).map Wildcard.names =
      (exceptOk (Wildcard.new "\x7ba,\\d+ \x7d")).map Wildcard.names := rfl
  rw [h1, h2] at hseq hneq
  simp only [exceptOk, Option.map_some'] at hseq hneq
  exact extract_congr (Option.some_inj.mp hseq) (Option.some_inj.mp hneq) C

/-- Witness for the amended whitespace claim at the candidate `"7 "`. -/
theorem claim_whitespace_stripping_witness : ∃ w1 w2,
    Wildcard.new "\x7b a , \\d+ \x7d" = .ok w1 ∧ Wildcard.new "\x7ba,\\d+ \x7d" = .ok w2 ∧
      w1.extract "7 " = w2.extract "7 " := by
  refine ⟨_, _, rfl, rfl, ?_⟩
  exact claim_whitespace_stripping_amended.2 _ _ "7 " rfl rfl

/-! ### The occurrence-index dupe check read as a group index -/

/-- C1: round-trip — refuted by the compiled engine itself.  The claim
says every successful extraction renders back to the original candidate,
but for the template `\x7bx,(a)|b\x7d/\x7bx\x7d` (whose constraint contains a group of
its own) and the candidate `"a/b"`, the dupe check reads global group
`d + 1 = 2` — the `(a)` inside the first constraint — instead of the
repeat occurrence's group `3`, so extraction succeeds with `x = "a"` and
rendering produces `"a/a" ≠ "a/b"`. -/
theorem claim_round_trip_bug :
    ∃ (w : Wildcard) (M : WildcardMap),
      Wildcard.new "\x7bx,(a)|b\x7d/\x7bx\x7d" = .ok w ∧
      w.extract "a/b" = some M ∧
      M.apply "\x7bx,(a)|b\x7d/\x7bx\x7d" = .ok "a/a" ∧
      ("a/a" : String) ≠ "a/b" :=
  ⟨_, _, rfl, rfl, rfl, by decide⟩

/-- C2: repeat-name consistency — refuted by the compiled engine itself.
The claim says extraction returns a mapping only when every repeat
occurrence captured the same text as the name's primary occurrence.  For
the template `\x7bx,(a)|b\x7d/\x7bx\x7d` on `"a/b"` the repeat occurrence of `x`
(global group `3`) captures `"b"` while the primary named group captures
`"a"`, yet extraction still returns `x = "a"`: the check compares
`cap.get(d + 1) = cap.get(2)` — the `(a)` group inside the first
constraint, which captured `"a"` — because the repeat-index list stores
occurrence indices, not the repeat groups' global numbers. -/
theorem claim_repeat_consistency_bug :
    ∃ (w : Wildcard) (caps : List (Nat × List Char)),
      Wildcard.new "\x7bx,(a)|b\x7d/\x7bx\x7d" = .ok w ∧
      w.names = [("x", [1])] ∧
      smatch w.segs ("a/b" : String).data = some caps ∧
      capName w.segs caps "x" = some ['a'] ∧
      capGet caps 3 = some ['b'] ∧
      (['b'] : List Char) ≠ ['a'] ∧
      capGet caps (1 + 1) = some ['a'] ∧
      w.extract "a/b" = some ⟨[("x", "a")]⟩ :=
  ⟨_, _, rfl, rfl, rfl, rfl, rfl, by decide, rfl, rfl⟩
